import Mathlib

/-!
Verification of the name-interning core of the sorbet repository.

The repository's `src/core/Names.h` declares the record types (`UTF8Name`,
`UniqueNameKind`, `UniqueName`, `ConstantName`) and their compile-time size
assertions.  The arena behaviour (interning, fresh-unique allocation, display,
freezing, deep copy) is declared there but implemented elsewhere in the
repository, so those operations are modelled from the specification and
checked against it together with the record types from the header.
-/

namespace SorbetNames

/-- Modelled from the spec: the handle kind discriminant (plain-text /
unique / constant), the tag of the tagged handle value (`src/core/NameRef.h`
is not in the sources). -/
inductive NameKind where
  | utf8
  | unique
  | constant
deriving DecidableEq

/-- Modelled from the spec: a handle is a kind discriminant plus a row index
into the corresponding table of the arena that produced it
(`src/core/NameRef.h` is not in the sources). -/
structure NameRef where
  kind : NameKind
  idx : Nat
deriving DecidableEq

/-- From `src/core/Names.h`: a plain-text record holding the interned byte
content. -/
structure UTF8Name where
  utf8 : String
deriving DecidableEq

/-- From `src/core/Names.h` lines 21-40: the closed disambiguation-kind tag,
sixteen values in declaration order. -/
inductive UniqueNameKind where
  | Parser
  | Desugar
  | Namer
  | MangleRename
  | MangleRenameOverload
  | Singleton
  | Overload
  | TypeVarName
  | PositionalArg
  | MangledKeywordArg
  | ResolverMissingClass
  | TEnum
  | Struct
  | Packager
  | DesugarCsend
  | WellKnown
deriving DecidableEq

/-- From `src/core/Names.h` lines 42-48: a unique-name record
`(original, num, uniqueNameKind)`.  `num` is a `uint32_t`; its value is a
natural number below `2 ^ 32`. -/
structure UniqueName where
  original : NameRef
  num : Nat
  uniqueNameKind : UniqueNameKind
deriving DecidableEq

/-- From `src/core/Names.h` lines 52-56: a constant-name record wrapping one
handle. -/
structure ConstantName where
  original : NameRef
deriving DecidableEq

/-- Modelled from the spec: the name arena (the repository's `GlobalState`,
not in the sources) owns the three append-only tables, the per-(original,
kind) counter map, and the frozen flag. -/
structure GlobalState where
  utf8Names : List UTF8Name
  uniqueNames : List UniqueName
  constantNames : List ConstantName
  counters : List ((NameRef × UniqueNameKind) × Nat)
  frozen : Bool

/-- Modelled from the spec: a freshly created arena has empty tables, empty
counters, and is not frozen. -/
def emptyGlobalState : GlobalState :=
  { utf8Names := [], uniqueNames := [], constantNames := [], counters := [], frozen := false }

/-- Index of the first table row satisfying the predicate (the
content-addressed lookup of the tables, modelled from the spec). -/
def lookupIdx {α : Type} (p : α → Bool) : List α → Option Nat
  | [] => none
  | x :: xs => if p x then some 0 else (lookupIdx p xs).map (· + 1)

/-- Modelled from the spec: the error class of the core; every error is a
fatal contract violation, never retried. -/
inductive NameError where
  | frozenArena
  | invalidHandle
  | cycleOrTooDeep
deriving DecidableEq

/-- Modelled from the spec: the counter map lookup; a key never written reads
as zero, so the first proposed sequence number is one. -/
def counterFor (gs : GlobalState) (orig : NameRef) (k : UniqueNameKind) : Nat :=
  match gs.counters.find? (fun e => decide (e.1 = (orig, k))) with
  | some e => e.2
  | none => 0

/-- Modelled from the spec: writing a counter value for (original, kind). -/
def setCounter (gs : GlobalState) (orig : NameRef) (k : UniqueNameKind) (v : Nat) : GlobalState :=
  { gs with counters := ((orig, k), v) :: gs.counters }

/-- Modelled from the spec: `intern(bytes)` returns the existing handle when
identical bytes were previously interned in this arena, else stores a copy
and allocates a new handle; on a frozen arena it is a fatal usage error. -/
def intern (gs : GlobalState) (s : String) : Except NameError (GlobalState × NameRef) :=
  if gs.frozen then .error .frozenArena
  else
    match lookupIdx (fun r => decide (r.utf8 = s)) gs.utf8Names with
    | some i => .ok (gs, ⟨.utf8, i⟩)
    | none =>
      .ok ({ gs with utf8Names := gs.utf8Names ++ [⟨s⟩] }, ⟨.utf8, gs.utf8Names.length⟩)

/-- Modelled from the spec: `internExact(original, kind, sequence)`
inserts-or-finds the exact triple without consulting or advancing the
counter; on a frozen arena it is a fatal usage error. -/
def internExact (gs : GlobalState) (orig : NameRef) (k : UniqueNameKind) (n : Nat) :
    Except NameError (GlobalState × NameRef) :=
  if gs.frozen then .error .frozenArena
  else
    match lookupIdx
        (fun r => decide (r.original = orig ∧ r.uniqueNameKind = k ∧ r.num = n))
        gs.uniqueNames with
    | some i => .ok (gs, ⟨.unique, i⟩)
    | none =>
      .ok ({ gs with uniqueNames := gs.uniqueNames ++ [⟨orig, n, k⟩] },
        ⟨.unique, gs.uniqueNames.length⟩)

/-- Modelled from the spec: `freshUnique(original, kind)` reads the arena's
counter for (original, kind), proposes the next sequence number, interns the
resulting triple if not already present, and advances the counter; on a
frozen arena it is a fatal usage error. -/
def freshUnique (gs : GlobalState) (orig : NameRef) (k : UniqueNameKind) :
    Except NameError (GlobalState × NameRef) :=
  if gs.frozen then .error .frozenArena
  else
    match internExact gs orig k (counterFor gs orig k + 1) with
    | .error e => .error e
    | .ok (gs', h) => .ok (setCounter gs' orig k (counterFor gs orig k + 1), h)

/-- Modelled from the spec: `constantNameFor(ref)` is the memoized wrapper
with the same dedup guarantee as `intern`, keyed on the wrapped handle; on a
frozen arena it is a fatal usage error. -/
def constantNameFor (gs : GlobalState) (ref : NameRef) :
    Except NameError (GlobalState × NameRef) :=
  if gs.frozen then .error .frozenArena
  else
    match lookupIdx (fun r => decide (r.original = ref)) gs.constantNames with
    | some i => .ok (gs, ⟨.constant, i⟩)
    | none =>
      .ok ({ gs with constantNames := gs.constantNames ++ [⟨ref⟩] },
        ⟨.constant, gs.constantNames.length⟩)

/-- Modelled from the spec: the kind-specific separator a unique name is
rendered with (one per disambiguation kind; always a non-empty marker). -/
def sepFor : UniqueNameKind → String
  | .Parser => "$parser$"
  | .Desugar => "$desugar$"
  | .Namer => "$namer$"
  | .MangleRename => "$mangleRename$"
  | .MangleRenameOverload => "$mangleRenameOverload$"
  | .Singleton => "$singleton$"
  | .Overload => "$overload$"
  | .TypeVarName => "$typeVar$"
  | .PositionalArg => "$arg$"
  | .MangledKeywordArg => "$kwargMangled$"
  | .ResolverMissingClass => "$stub$"
  | .TEnum => "$tenum$"
  | .Struct => "$struct$"
  | .Packager => "$pkg$"
  | .DesugarCsend => "$csend$"
  | .WellKnown => "$wellKnown$"

/-- Modelled from the spec: how one unique-name record renders on top of its
original's display: the original's display plus a kind-specific separator
and the sequence number, except the well-known kind, which renders
identically to the original. -/
def renderUnique (s : String) (k : UniqueNameKind) (n : Nat) : String :=
  match k with
  | .WellKnown => s
  | k => s ++ sepFor k ++ toString n

/-- Modelled from the spec: the display function `show`, fuelled by the
reference-chain depth.  A plain-text handle renders as its byte content; a
unique name renders on top of the original's display via `renderUnique`; a
constant name passes display through to the wrapped name. -/
def showFuel : Nat → GlobalState → NameRef → Option String
  | 0, _, _ => none
  | fuel + 1, gs, h =>
    match h.kind with
    | .utf8 => (gs.utf8Names.get? h.idx).map (fun r => r.utf8)
    | .unique =>
      (gs.uniqueNames.get? h.idx).bind (fun r =>
        (showFuel fuel gs r.original).map (fun s => renderUnique s r.uniqueNameKind r.num))
    | .constant =>
      (gs.constantNames.get? h.idx).bind (fun r => showFuel fuel gs r.original)

/-- The arena's bound on reference-chain depth: a resolvable handle's chain
visits pairwise distinct unique and constant records, so its depth is at
most the number of such records plus one. -/
def arenaFuel (gs : GlobalState) : Nat :=
  gs.uniqueNames.length + gs.constantNames.length + 1

/-- Modelled from the spec: `show(ref)` on an arena. -/
def showName (gs : GlobalState) (h : NameRef) : Option String :=
  showFuel (arenaFuel gs) gs h

/-- The list of handles visited while resolving a display, outermost first
(a proof device used to bound the depth of reference chains). -/
def chainRecords : Nat → GlobalState → NameRef → Option (List NameRef)
  | 0, _, _ => none
  | fuel + 1, gs, h =>
    match h.kind with
    | .utf8 => if (gs.utf8Names.get? h.idx).isSome then some [h] else none
    | .unique =>
      (gs.uniqueNames.get? h.idx).bind (fun r =>
        (chainRecords fuel gs r.original).map (fun l => h :: l))
    | .constant =>
      (gs.constantNames.get? h.idx).bind (fun r =>
        (chainRecords fuel gs r.original).map (fun l => h :: l))

/-- One arena's tables extend another's: each table of the second arena is
the corresponding table of the first with records appended at the end
(interning is append-only). -/
def extendsGS (gs gs' : GlobalState) : Prop :=
  (∃ t, gs'.utf8Names = gs.utf8Names ++ t) ∧
  (∃ t, gs'.uniqueNames = gs.uniqueNames ++ t) ∧
  (∃ t, gs'.constantNames = gs.constantNames ++ t)

/-- Modelled from the spec: the merge / deep-copy service, fuelled by the
reference-chain depth.  Plain-text names re-intern their byte content into
the target; unique names first deep-copy `original`, then exact-insert the
copied original with the same kind and the same sequence number; constant
names deep-copy the wrapped handle and re-wrap. -/
def deepCopyFuel : Nat → GlobalState → NameRef → GlobalState →
    Except NameError (GlobalState × NameRef)
  | 0, _, _, _ => .error .cycleOrTooDeep
  | fuel + 1, src, h, tgt =>
    match h.kind with
    | .utf8 =>
      match src.utf8Names.get? h.idx with
      | none => .error .invalidHandle
      | some r => intern tgt r.utf8
    | .unique =>
      match src.uniqueNames.get? h.idx with
      | none => .error .invalidHandle
      | some r =>
        match deepCopyFuel fuel src r.original tgt with
        | .error e => .error e
        | .ok (tgt', o') => internExact tgt' o' r.uniqueNameKind r.num
    | .constant =>
      match src.constantNames.get? h.idx with
      | none => .error .invalidHandle
      | some r =>
        match deepCopyFuel fuel src r.original tgt with
        | .error e => .error e
        | .ok (tgt', o') => constantNameFor tgt' o'

/-- Modelled from the spec: `deepCopy(sourceArena, ref, targetArena)`; the
fuel bound realises the cycle-detection contract (a cycle exhausts the bound
and fails fatally). -/
def deepCopy (src : GlobalState) (h : NameRef) (tgt : GlobalState) :
    Except NameError (GlobalState × NameRef) :=
  deepCopyFuel (arenaFuel src) src h tgt

/-- Modelled from the spec: replaying an ordered sequence of `freshUnique`
calls against an arena, collecting the returned handles (`none` marks a
failed call). -/
def runFresh (gs : GlobalState) : List (NameRef × UniqueNameKind) →
    GlobalState × List (Option NameRef)
  | [] => (gs, [])
  | (o, k) :: rest =>
    match freshUnique gs o k with
    | .error _ =>
      let r := runFresh gs rest
      (r.1, none :: r.2)
    | .ok (gs', h) =>
      let r := runFresh gs' rest
      (r.1, some h :: r.2)

/-- Modelled from the spec: the display strings of the handles returned by a
replay, read back against the replay's final arena. -/
def runFreshShows (gs : GlobalState) (calls : List (NameRef × UniqueNameKind)) :
    List (Option String) :=
  (runFresh gs calls).2.map (fun oh => oh.bind (fun h => showName (runFresh gs calls).1 h))

/-- The sixteen disambiguation kinds of `src/core/Names.h` lines 21-40, in
declaration order. -/
def allUniqueNameKinds : List UniqueNameKind :=
  [.Parser, .Desugar, .Namer, .MangleRename, .MangleRenameOverload, .Singleton,
   .Overload, .TypeVarName, .PositionalArg, .MangledKeywordArg,
   .ResolverMissingClass, .TEnum, .Struct, .Packager, .DesugarCsend, .WellKnown]

/-- The value an `int` takes when stored into the `uint32_t` sequence field of
`UniqueName` (`src/core/Names.h` line 44): the integer reduced modulo
`2 ^ 32`. -/
def uint32Of (i : Int) : Nat := (i % (2 ^ 32 : Int)).toNat

/-- Modelled from the code comment on `UniqueNameKind::PositionalArg`
(`src/core/Names.h` line 30): a positional-argument record stores the
argument position when non-negative, `-1` for a rest-argument slot and `-2`
for a keyword-rest-argument slot, reduced into the unsigned 32-bit `num`
field. -/
def mkPositionalArg (orig : NameRef) (pos : Int) : UniqueName :=
  ⟨orig, uint32Of pos, .PositionalArg⟩

/-- Align `off` up to a multiple of the alignment `a` (C object layout). -/
def alignUp (off a : Nat) : Nat := (off + a - 1) / a * a

/-- C struct layout on the assertions' target: fields are placed in
declaration order at offsets aligned up to the field alignment; the struct
alignment is the maximum field alignment and the struct size is the end
offset rounded up to that alignment.  Input: a list of (size, alignment)
pairs; output: (size, alignment) of the struct. -/
def structLayout (fields : List (Nat × Nat)) : Nat × Nat :=
  let r := fields.foldl (fun acc fld => (alignUp acc.1 fld.2 + fld.1, max acc.2 fld.2)) (0, 1)
  (alignUp r.1 r.2, r.2)

/-- From `src/core/Names.h` line 15 on the LP64 target the size assertions
assume: `std::string_view` is a data pointer and a length, eight bytes
each. -/
def utf8NameFields : List (Nat × Nat) := [(8, 8), (8, 8)]

/-- `NameRef` is a single 32-bit index word (as `CheckSize(ConstantName, 4,
4)` on `src/core/Names.h` line 57 records). -/
def nameRefField : Nat × Nat := (4, 4)

/-- From `src/core/Names.h` lines 42-45: `NameRef original; uint32_t num;
UniqueNameKind uniqueNameKind` with `UniqueNameKind : uint8_t`. -/
def uniqueNameFields : List (Nat × Nat) := [nameRefField, (4, 4), (1, 1)]

/-- From `src/core/Names.h` lines 52-54: a single `NameRef` field. -/
def constantNameFields : List (Nat × Nat) := [nameRefField]

/-- A concrete arena: the result of interning "foo" into a fresh arena. -/
def fooArena : GlobalState :=
  { utf8Names := [⟨"foo"⟩], uniqueNames := [], constantNames := [],
    counters := [], frozen := false }

/-- A concrete arena: `fooArena` after one `freshUnique` call on the "foo"
handle with the well-known kind. -/
def fooWellKnownArena : GlobalState :=
  { utf8Names := [⟨"foo"⟩], uniqueNames := [⟨⟨.utf8, 0⟩, 1, .WellKnown⟩],
    constantNames := [], counters := [((⟨.utf8, 0⟩, .WellKnown), 1)], frozen := false }

/-- A concrete arena: a fresh arena after one `freshUnique` call with the
namer kind on a plain-text handle. -/
def namerArena : GlobalState :=
  { utf8Names := [], uniqueNames := [⟨⟨.utf8, 0⟩, 1, .Namer⟩], constantNames := [],
    counters := [((⟨.utf8, 0⟩, .Namer), 1)], frozen := false }

/-- A concrete arena: `fooArena` after one `freshUnique` call on the "foo"
handle with the namer kind. -/
def fooNamerArena : GlobalState :=
  { utf8Names := [⟨"foo"⟩], uniqueNames := [⟨⟨.utf8, 0⟩, 1, .Namer⟩],
    constantNames := [], counters := [((⟨.utf8, 0⟩, .Namer), 1)], frozen := false }

/-- A concrete arena: the result of deep-copying `fooNamerArena`'s unique
handle into a fresh target arena (no counters are carried over). -/
def fooNamerCopyArena : GlobalState :=
  { utf8Names := [⟨"foo"⟩], uniqueNames := [⟨⟨.utf8, 0⟩, 1, .Namer⟩],
    constantNames := [], counters := [], frozen := false }

/-!  Theorems.  First a layer of helper lemmas about table lookup, the
interning operations, and display; then the claims. -/

theorem get_append_left {α : Type} {l : List α} {i : Nat} {x : α} (t : List α)
    (h : l.get? i = some x) : (l ++ t).get? i = some x := by
  induction l generalizing i with
  | nil => simp at h
  | cons a l ih =>
    cases i with
    | zero => simpa using h
    | succ n =>
      simp only [List.cons_append, List.get?] at h ⊢
      exact ih h

theorem get_some_lt {α : Type} {l : List α} {i : Nat} {x : α}
    (h : l.get? i = some x) : i < l.length := by
  by_contra hlt
  rw [List.get?_eq_none.mpr (by omega)] at h
  cases h

theorem lookupIdx_get {α : Type} {p : α → Bool} {l : List α} {i : Nat}
    (h : lookupIdx p l = some i) : ∃ x, l.get? i = some x ∧ p x = true := by
  induction l generalizing i with
  | nil => simp [lookupIdx] at h
  | cons a l ih =>
    cases hp : p a with
    | true =>
      simp [lookupIdx, hp] at h
      subst h
      exact ⟨a, rfl, hp⟩
    | false =>
      simp [lookupIdx, hp] at h
      obtain ⟨j, hj, rfl⟩ := h
      obtain ⟨x, hx, hpx⟩ := ih hj
      exact ⟨x, by simpa using hx, hpx⟩

theorem lookupIdx_append_some {α : Type} {p : α → Bool} {l : List α} {i : Nat}
    (t : List α) (h : lookupIdx p l = some i) : lookupIdx p (l ++ t) = some i := by
  induction l generalizing i with
  | nil => simp [lookupIdx] at h
  | cons a l ih =>
    cases hp : p a with
    | true =>
      simp [lookupIdx, hp] at h ⊢
      exact h
    | false =>
      simp [lookupIdx, hp] at h ⊢
      obtain ⟨j, hj, rfl⟩ := h
      exact ⟨j, ih hj, rfl⟩

theorem lookupIdx_none_forall {α : Type} {p : α → Bool} {l : List α}
    (h : lookupIdx p l = none) : ∀ x ∈ l, p x = false := by
  induction l with
  | nil => simp
  | cons a l ih =>
    cases hp : p a with
    | true => simp [lookupIdx, hp] at h
    | false =>
      simp [lookupIdx, hp] at h
      intro x hx
      rcases List.mem_cons.mp hx with rfl | hx2
      · exact hp
      · exact ih h x hx2

theorem lookupIdx_append_found {α : Type} {p : α → Bool} {l : List α} {x : α}
    (h : lookupIdx p l = none) (hx : p x = true) (t : List α) :
    lookupIdx p (l ++ x :: t) = some l.length := by
  induction l with
  | nil => simp [lookupIdx, hx]
  | cons a l ih =>
    cases hp : p a with
    | true => simp [lookupIdx, hp] at h
    | false =>
      simp [lookupIdx, hp] at h
      simpa [lookupIdx, hp] using ih h

theorem lookupIdx_of_mem {α : Type} {p : α → Bool} {l : List α} {x : α}
    (hx : x ∈ l) (hpx : p x = true) : ∃ i, lookupIdx p l = some i := by
  induction l with
  | nil => simp at hx
  | cons a l ih =>
    cases hp : p a with
    | true => exact ⟨0, by simp [lookupIdx, hp]⟩
    | false =>
      rcases List.mem_cons.mp hx with rfl | hx2
      · rw [hpx] at hp
        cases hp
      · obtain ⟨i, hi⟩ := ih hx2
        exact ⟨i + 1, by simp [lookupIdx, hp, hi]⟩

theorem extendsGS_refl (gs : GlobalState) : extendsGS gs gs :=
  ⟨⟨[], by simp⟩, ⟨[], by simp⟩, ⟨[], by simp⟩⟩

theorem extendsGS_trans {a b c : GlobalState} (h1 : extendsGS a b) (h2 : extendsGS b c) :
    extendsGS a c := by
  obtain ⟨⟨t1, e1⟩, ⟨t2, e2⟩, ⟨t3, e3⟩⟩ := h1
  obtain ⟨⟨u1, f1⟩, ⟨u2, f2⟩, ⟨u3, f3⟩⟩ := h2
  refine ⟨⟨t1 ++ u1, ?_⟩, ⟨t2 ++ u2, ?_⟩, ⟨t3 ++ u3, ?_⟩⟩
  · rw [f1, e1, List.append_assoc]
  · rw [f2, e2, List.append_assoc]
  · rw [f3, e3, List.append_assoc]

theorem intern_ok {gs gs' : GlobalState} {s : String} {h : NameRef}
    (hc : intern gs s = .ok (gs', h)) :
    gs.frozen = false ∧ gs'.frozen = false ∧ h.kind = .utf8 ∧
    lookupIdx (fun r => decide (r.utf8 = s)) gs'.utf8Names = some h.idx ∧
    gs'.uniqueNames = gs.uniqueNames ∧
    gs'.constantNames = gs.constantNames ∧
    gs'.counters = gs.counters ∧
    (∃ t, gs'.utf8Names = gs.utf8Names ++ t) := by
  unfold intern at hc
  by_cases hfz : gs.frozen = true
  · simp [hfz] at hc
  · simp only [Bool.not_eq_true] at hfz
    rw [hfz] at hc
    simp only [Bool.false_eq_true, if_false] at hc
    cases hl : lookupIdx (fun r => decide (r.utf8 = s)) gs.utf8Names with
    | some i =>
      rw [hl] at hc
      simp only [Except.ok.injEq, Prod.mk.injEq] at hc
      obtain ⟨rfl, rfl⟩ := hc
      exact ⟨hfz, hfz, rfl, hl, rfl, rfl, rfl, ⟨[], by simp⟩⟩
    | none =>
      rw [hl] at hc
      simp only [Except.ok.injEq, Prod.mk.injEq] at hc
      obtain ⟨rfl, rfl⟩ := hc
      refine ⟨hfz, rfl, rfl, ?_, rfl, rfl, rfl, ⟨[⟨s⟩], rfl⟩⟩
      exact lookupIdx_append_found hl (by simp) []

theorem internExact_ok {gs gs' : GlobalState} {o h : NameRef} {k : UniqueNameKind} {n : Nat}
    (hc : internExact gs o k n = .ok (gs', h)) :
    gs.frozen = false ∧ gs'.frozen = false ∧ h.kind = .unique ∧
    lookupIdx (fun r => decide (r.original = o ∧ r.uniqueNameKind = k ∧ r.num = n))
      gs'.uniqueNames = some h.idx ∧
    gs'.utf8Names = gs.utf8Names ∧
    gs'.constantNames = gs.constantNames ∧
    gs'.counters = gs.counters ∧
    (∃ t, gs'.uniqueNames = gs.uniqueNames ++ t) := by
  unfold internExact at hc
  by_cases hfz : gs.frozen = true
  · simp [hfz] at hc
  · simp only [Bool.not_eq_true] at hfz
    rw [hfz] at hc
    simp only [Bool.false_eq_true, if_false] at hc
    cases hl : lookupIdx
        (fun r => decide (r.original = o ∧ r.uniqueNameKind = k ∧ r.num = n))
        gs.uniqueNames with
    | some i =>
      rw [hl] at hc
      simp only [Except.ok.injEq, Prod.mk.injEq] at hc
      obtain ⟨rfl, rfl⟩ := hc
      exact ⟨hfz, hfz, rfl, hl, rfl, rfl, rfl, ⟨[], by simp⟩⟩
    | none =>
      rw [hl] at hc
      simp only [Except.ok.injEq, Prod.mk.injEq] at hc
      obtain ⟨rfl, rfl⟩ := hc
      refine ⟨hfz, rfl, rfl, ?_, rfl, rfl, rfl, ⟨[⟨o, n, k⟩], rfl⟩⟩
      exact lookupIdx_append_found hl (by simp) []

theorem constantNameFor_ok {gs gs' : GlobalState} {o h : NameRef}
    (hc : constantNameFor gs o = .ok (gs', h)) :
    gs.frozen = false ∧ gs'.frozen = false ∧ h.kind = .constant ∧
    lookupIdx (fun r => decide (r.original = o)) gs'.constantNames = some h.idx ∧
    gs'.utf8Names = gs.utf8Names ∧
    gs'.uniqueNames = gs.uniqueNames ∧
    gs'.counters = gs.counters ∧
    (∃ t, gs'.constantNames = gs.constantNames ++ t) := by
  unfold constantNameFor at hc
  by_cases hfz : gs.frozen = true
  · simp [hfz] at hc
  · simp only [Bool.not_eq_true] at hfz
    rw [hfz] at hc
    simp only [Bool.false_eq_true, if_false] at hc
    cases hl : lookupIdx (fun r => decide (r.original = o)) gs.constantNames with
    | some i =>
      rw [hl] at hc
      simp only [Except.ok.injEq, Prod.mk.injEq] at hc
      obtain ⟨rfl, rfl⟩ := hc
      exact ⟨hfz, hfz, rfl, hl, rfl, rfl, rfl, ⟨[], by simp⟩⟩
    | none =>
      rw [hl] at hc
      simp only [Except.ok.injEq, Prod.mk.injEq] at hc
      obtain ⟨rfl, rfl⟩ := hc
      refine ⟨hfz, rfl, rfl, ?_, rfl, rfl, rfl, ⟨[⟨o⟩], rfl⟩⟩
      exact lookupIdx_append_found hl (by simp) []

theorem counterFor_setCounter (gs : GlobalState) (o : NameRef) (k : UniqueNameKind) (v : Nat) :
    counterFor (setCounter gs o k v) o k = v := by
  unfold counterFor setCounter
  rw [List.find?_cons_of_pos _ (by simp)]

theorem freshUnique_ok {gs gs' : GlobalState} {o h : NameRef} {k : UniqueNameKind}
    (hc : freshUnique gs o k = .ok (gs', h)) :
    gs.frozen = false ∧ gs'.frozen = false ∧ h.kind = .unique ∧
    lookupIdx (fun r => decide (r.original = o ∧ r.uniqueNameKind = k ∧
      r.num = counterFor gs o k + 1)) gs'.uniqueNames = some h.idx ∧
    gs'.utf8Names = gs.utf8Names ∧
    gs'.constantNames = gs.constantNames ∧
    counterFor gs' o k = counterFor gs o k + 1 ∧
    (∃ t, gs'.uniqueNames = gs.uniqueNames ++ t) := by
  unfold freshUnique at hc
  by_cases hfz : gs.frozen = true
  · simp [hfz] at hc
  · simp only [Bool.not_eq_true] at hfz
    rw [hfz] at hc
    simp only [Bool.false_eq_true, if_false] at hc
    cases hx : internExact gs o k (counterFor gs o k + 1) with
    | error e => rw [hx] at hc; cases hc
    | ok p =>
      obtain ⟨gs1, h1⟩ := p
      rw [hx] at hc
      simp only [Except.ok.injEq, Prod.mk.injEq] at hc
      obtain ⟨rfl, rfl⟩ := hc
      obtain ⟨_, hfz1, hk1, hl1, hu1, hcn1, hct1, ⟨t, ht⟩⟩ := internExact_ok hx
      exact ⟨hfz, hfz1, hk1, hl1, hu1, hcn1, counterFor_setCounter gs1 o k _, ⟨t, ht⟩⟩

theorem intern_extends {gs gs' : GlobalState} {s : String} {h : NameRef}
    (hc : intern gs s = .ok (gs', h)) : extendsGS gs gs' := by
  obtain ⟨_, _, _, _, hq, hcn, _, ⟨t, ht⟩⟩ := intern_ok hc
  exact ⟨⟨t, ht⟩, ⟨[], by rw [hq, List.append_nil]⟩, ⟨[], by rw [hcn, List.append_nil]⟩⟩

theorem internExact_extends {gs gs' : GlobalState} {o h : NameRef} {k : UniqueNameKind}
    {n : Nat} (hc : internExact gs o k n = .ok (gs', h)) : extendsGS gs gs' := by
  obtain ⟨_, _, _, _, hu, hcn, _, ⟨t, ht⟩⟩ := internExact_ok hc
  exact ⟨⟨[], by rw [hu, List.append_nil]⟩, ⟨t, ht⟩, ⟨[], by rw [hcn, List.append_nil]⟩⟩

theorem constantNameFor_extends {gs gs' : GlobalState} {o h : NameRef}
    (hc : constantNameFor gs o = .ok (gs', h)) : extendsGS gs gs' := by
  obtain ⟨_, _, _, _, hu, hq, _, ⟨t, ht⟩⟩ := constantNameFor_ok hc
  exact ⟨⟨[], by rw [hu, List.append_nil]⟩, ⟨[], by rw [hq, List.append_nil]⟩, ⟨t, ht⟩⟩

theorem freshUnique_extends {gs gs' : GlobalState} {o h : NameRef} {k : UniqueNameKind}
    (hc : freshUnique gs o k = .ok (gs', h)) : extendsGS gs gs' := by
  obtain ⟨_, _, _, _, hu, hcn, _, ⟨t, ht⟩⟩ := freshUnique_ok hc
  exact ⟨⟨[], by rw [hu, List.append_nil]⟩, ⟨t, ht⟩, ⟨[], by rw [hcn, List.append_nil]⟩⟩

theorem showFuel_extends {gs gs' : GlobalState} (hx : extendsGS gs gs') :
    ∀ (f : Nat) (h : NameRef) (s : String),
      showFuel f gs h = some s → showFuel f gs' h = some s := by
  obtain ⟨⟨tu, htu⟩, ⟨tq, htq⟩, ⟨tc, htc⟩⟩ := hx
  intro f
  induction f with
  | zero => intro h s hs; simp [showFuel] at hs
  | succ f ih =>
    intro h s hs
    obtain ⟨k0, i0⟩ := h
    cases k0 with
    | utf8 =>
      simp only [showFuel] at hs ⊢
      rw [Option.map_eq_some'] at hs ⊢
      obtain ⟨r, hr, hrs⟩ := hs
      exact ⟨r, by rw [htu]; exact get_append_left tu hr, hrs⟩
    | unique =>
      simp only [showFuel] at hs ⊢
      rw [Option.bind_eq_some] at hs ⊢
      obtain ⟨r, hr, hmap⟩ := hs
      refine ⟨r, by rw [htq]; exact get_append_left tq hr, ?_⟩
      rw [Option.map_eq_some'] at hmap ⊢
      obtain ⟨s0, hs0, rfl⟩ := hmap
      exact ⟨s0, ih r.original s0 hs0, rfl⟩
    | constant =>
      simp only [showFuel] at hs ⊢
      rw [Option.bind_eq_some] at hs ⊢
      obtain ⟨r, hr, hrec⟩ := hs
      exact ⟨r, by rw [htc]; exact get_append_left tc hr, ih r.original s hrec⟩

theorem showFuel_mono {gs : GlobalState} :
    ∀ (f g : Nat), f ≤ g → ∀ (h : NameRef) (s : String),
      showFuel f gs h = some s → showFuel g gs h = some s := by
  intro f
  induction f with
  | zero => intro g _ h s hs; simp [showFuel] at hs
  | succ f ih =>
    intro g hfg h s hs
    cases g with
    | zero => omega
    | succ g =>
      have hfg' : f ≤ g := by omega
      obtain ⟨k0, i0⟩ := h
      cases k0 with
      | utf8 => simpa [showFuel] using hs
      | unique =>
        simp only [showFuel] at hs ⊢
        rw [Option.bind_eq_some] at hs ⊢
        obtain ⟨r, hr, hmap⟩ := hs
        refine ⟨r, hr, ?_⟩
        rw [Option.map_eq_some'] at hmap ⊢
        obtain ⟨s0, hs0, rfl⟩ := hmap
        exact ⟨s0, ih g hfg' r.original s0 hs0, rfl⟩
      | constant =>
        simp only [showFuel] at hs ⊢
        rw [Option.bind_eq_some] at hs ⊢
        obtain ⟨r, hr, hrec⟩ := hs
        exact ⟨r, hr, ih g hfg' r.original s hrec⟩

theorem showFuel_chain {gs : GlobalState} :
    ∀ (f : Nat) (h : NameRef) (s : String), showFuel f gs h = some s →
      ∃ l, chainRecords f gs h = some l ∧ 0 < l.length ∧
        showFuel l.length gs h = some s := by
  intro f
  induction f with
  | zero => intro h s hs; simp [showFuel] at hs
  | succ f ih =>
    intro h s hs
    obtain ⟨k0, i0⟩ := h
    cases k0 with
    | utf8 =>
      refine ⟨[⟨.utf8, i0⟩], ?_, by simp, ?_⟩
      · simp only [showFuel] at hs
        rw [Option.map_eq_some'] at hs
        obtain ⟨r, hr, _⟩ := hs
        simp only [chainRecords]
        rw [if_pos (by rw [hr]; rfl)]
      · simpa [showFuel] using hs
    | unique =>
      simp only [showFuel] at hs
      rw [Option.bind_eq_some] at hs
      obtain ⟨r, hr, hmap⟩ := hs
      rw [Option.map_eq_some'] at hmap
      obtain ⟨s0, hs0, rfl⟩ := hmap
      obtain ⟨l, hl, hlen, hshow⟩ := ih r.original s0 hs0
      refine ⟨⟨.unique, i0⟩ :: l, ?_, by simp, ?_⟩
      · simp only [chainRecords]
        rw [hr]
        simp only [Option.some_bind]
        rw [hl]
        rfl
      · simp only [List.length_cons, showFuel, hr]
        rw [Option.bind_eq_some]
        refine ⟨r, rfl, ?_⟩
        rw [Option.map_eq_some']
        exact ⟨s0, hshow, rfl⟩
    | constant =>
      simp only [showFuel] at hs
      rw [Option.bind_eq_some] at hs
      obtain ⟨r, hr, hrec⟩ := hs
      obtain ⟨l, hl, hlen, hshow⟩ := ih r.original s hrec
      refine ⟨⟨.constant, i0⟩ :: l, ?_, by simp, ?_⟩
      · simp only [chainRecords]
        rw [hr]
        simp only [Option.some_bind]
        rw [hl]
        rfl
      · simp only [List.length_cons, showFuel, hr]
        rw [Option.bind_eq_some]
        exact ⟨r, rfl, hshow⟩

theorem chainRecords_det {gs : GlobalState} :
    ∀ (f : Nat) (h : NameRef) (l : List NameRef), chainRecords f gs h = some l →
      ∀ (g : Nat) (l' : List NameRef), chainRecords g gs h = some l' → l = l' := by
  intro f
  induction f with
  | zero => intro h l hl; simp [chainRecords] at hl
  | succ f ih =>
    intro h l hl g l' hl'
    cases g with
    | zero => simp [chainRecords] at hl'
    | succ g =>
      obtain ⟨k0, i0⟩ := h
      cases k0 with
      | utf8 =>
        simp only [chainRecords] at hl hl'
        by_cases hs : (gs.utf8Names.get? i0).isSome
        · rw [if_pos hs] at hl hl'
          rw [← Option.some.inj hl, ← Option.some.inj hl']
        · rw [if_neg hs] at hl
          cases hl
      | unique =>
        simp only [chainRecords] at hl hl'
        rw [Option.bind_eq_some] at hl hl'
        obtain ⟨r, hr, hm⟩ := hl
        obtain ⟨r', hr', hm'⟩ := hl'
        rw [hr] at hr'
        obtain rfl := Option.some.inj hr'
        rw [Option.map_eq_some'] at hm hm'
        obtain ⟨l2, hl2, rfl⟩ := hm
        obtain ⟨l2', hl2', rfl⟩ := hm'
        rw [ih r.original l2 hl2 g l2' hl2']
      | constant =>
        simp only [chainRecords] at hl hl'
        rw [Option.bind_eq_some] at hl hl'
        obtain ⟨r, hr, hm⟩ := hl
        obtain ⟨r', hr', hm'⟩ := hl'
        rw [hr] at hr'
        obtain rfl := Option.some.inj hr'
        rw [Option.map_eq_some'] at hm hm'
        obtain ⟨l2, hl2, rfl⟩ := hm
        obtain ⟨l2', hl2', rfl⟩ := hm'
        rw [ih r.original l2 hl2 g l2' hl2']

theorem chainRecords_mem {gs : GlobalState} :
    ∀ (f : Nat) (h : NameRef) (l : List NameRef), chainRecords f gs h = some l →
      ∀ x ∈ l, ∃ g lx, chainRecords g gs x = some lx ∧ lx.length ≤ l.length ∧
        (lx.length = l.length → x = h) := by
  intro f
  induction f with
  | zero => intro h l hl; simp [chainRecords] at hl
  | succ f ih =>
    intro h l hl x hx
    obtain ⟨k0, i0⟩ := h
    cases k0 with
    | utf8 =>
      have hl0 := hl
      simp only [chainRecords] at hl
      by_cases hs : (gs.utf8Names.get? i0).isSome
      · rw [if_pos hs] at hl
        obtain rfl := Option.some.inj hl
        obtain rfl : x = ⟨.utf8, i0⟩ := by simpa using hx
        exact ⟨f + 1, _, hl0, le_refl _, fun _ => rfl⟩
      · rw [if_neg hs] at hl
        cases hl
    | unique =>
      have hl0 := hl
      simp only [chainRecords] at hl
      rw [Option.bind_eq_some] at hl
      obtain ⟨r, hr, hm⟩ := hl
      rw [Option.map_eq_some'] at hm
      obtain ⟨l2, hl2, rfl⟩ := hm
      rcases List.mem_cons.mp hx with rfl | hx2
      · exact ⟨f + 1, _, hl0, le_refl _, fun _ => rfl⟩
      · obtain ⟨g, lx, hg, hle, _⟩ := ih r.original l2 hl2 x hx2
        refine ⟨g, lx, hg, ?_, ?_⟩
        · simp only [List.length_cons]
          omega
        · intro he
          exfalso
          simp only [List.length_cons] at he
          omega
    | constant =>
      have hl0 := hl
      simp only [chainRecords] at hl
      rw [Option.bind_eq_some] at hl
      obtain ⟨r, hr, hm⟩ := hl
      rw [Option.map_eq_some'] at hm
      obtain ⟨l2, hl2, rfl⟩ := hm
      rcases List.mem_cons.mp hx with rfl | hx2
      · exact ⟨f + 1, _, hl0, le_refl _, fun _ => rfl⟩
      · obtain ⟨g, lx, hg, hle, _⟩ := ih r.original l2 hl2 x hx2
        refine ⟨g, lx, hg, ?_, ?_⟩
        · simp only [List.length_cons]
          omega
        · intro he
          exfalso
          simp only [List.length_cons] at he
          omega

theorem chainRecords_nodup {gs : GlobalState} :
    ∀ (f : Nat) (h : NameRef) (l : List NameRef), chainRecords f gs h = some l →
      l.Nodup := by
  intro f
  induction f with
  | zero => intro h l hl; simp [chainRecords] at hl
  | succ f ih =>
    intro h l hl
    obtain ⟨k0, i0⟩ := h
    cases k0 with
    | utf8 =>
      simp only [chainRecords] at hl
      by_cases hs : (gs.utf8Names.get? i0).isSome
      · rw [if_pos hs] at hl
        obtain rfl := Option.some.inj hl
        simp
      · rw [if_neg hs] at hl
        cases hl
    | unique =>
      have hl0 := hl
      simp only [chainRecords] at hl
      rw [Option.bind_eq_some] at hl
      obtain ⟨r, hr, hm⟩ := hl
      rw [Option.map_eq_some'] at hm
      obtain ⟨l2, hl2, rfl⟩ := hm
      refine List.nodup_cons.mpr ⟨?_, ih r.original l2 hl2⟩
      intro hmem
      obtain ⟨g, lx, hg, hle, _⟩ := chainRecords_mem f r.original l2 hl2 _ hmem
      have hdet := chainRecords_det g _ lx hg (f + 1) _ hl0
      rw [hdet] at hle
      simp only [List.length_cons] at hle
      omega
    | constant =>
      have hl0 := hl
      simp only [chainRecords] at hl
      rw [Option.bind_eq_some] at hl
      obtain ⟨r, hr, hm⟩ := hl
      rw [Option.map_eq_some'] at hm
      obtain ⟨l2, hl2, rfl⟩ := hm
      refine List.nodup_cons.mpr ⟨?_, ih r.original l2 hl2⟩
      intro hmem
      obtain ⟨g, lx, hg, hle, _⟩ := chainRecords_mem f r.original l2 hl2 _ hmem
      have hdet := chainRecords_det g _ lx hg (f + 1) _ hl0
      rw [hdet] at hle
      simp only [List.length_cons] at hle
      omega

theorem chainRecords_split {gs : GlobalState} :
    ∀ (f : Nat) (h : NameRef) (l : List NameRef), chainRecords f gs h = some l →
      ∃ init z, l = init ++ [z] ∧ ∀ x ∈ init,
        (x.kind = .unique ∧ x.idx < gs.uniqueNames.length) ∨
        (x.kind = .constant ∧ x.idx < gs.constantNames.length) := by
  intro f
  induction f with
  | zero => intro h l hl; simp [chainRecords] at hl
  | succ f ih =>
    intro h l hl
    obtain ⟨k0, i0⟩ := h
    cases k0 with
    | utf8 =>
      simp only [chainRecords] at hl
      by_cases hs : (gs.utf8Names.get? i0).isSome
      · rw [if_pos hs] at hl
        obtain rfl := Option.some.inj hl
        exact ⟨[], ⟨.utf8, i0⟩, rfl, by simp⟩
      · rw [if_neg hs] at hl
        cases hl
    | unique =>
      simp only [chainRecords] at hl
      rw [Option.bind_eq_some] at hl
      obtain ⟨r, hr, hm⟩ := hl
      rw [Option.map_eq_some'] at hm
      obtain ⟨l2, hl2, rfl⟩ := hm
      obtain ⟨init2, z, rfl, hbound⟩ := ih r.original l2 hl2
      refine ⟨⟨.unique, i0⟩ :: init2, z, rfl, ?_⟩
      intro x hx
      rcases List.mem_cons.mp hx with rfl | hx2
      · exact Or.inl ⟨rfl, get_some_lt hr⟩
      · exact hbound x hx2
    | constant =>
      simp only [chainRecords] at hl
      rw [Option.bind_eq_some] at hl
      obtain ⟨r, hr, hm⟩ := hl
      rw [Option.map_eq_some'] at hm
      obtain ⟨l2, hl2, rfl⟩ := hm
      obtain ⟨init2, z, rfl, hbound⟩ := ih r.original l2 hl2
      refine ⟨⟨.constant, i0⟩ :: init2, z, rfl, ?_⟩
      intro x hx
      rcases List.mem_cons.mp hx with rfl | hx2
      · exact Or.inr ⟨rfl, get_some_lt hr⟩
      · exact hbound x hx2

theorem chainRecords_length_le {gs : GlobalState} (f : Nat) (h : NameRef)
    (l : List NameRef) (hl : chainRecords f gs h = some l) :
    l.length ≤ arenaFuel gs := by
  obtain ⟨init, z, rfl, hbound⟩ := chainRecords_split f h l hl
  have hnd : (init ++ [z]).Nodup := chainRecords_nodup f h _ hl
  have hndi : init.Nodup := (List.nodup_append.mp hnd).1
  have hsub : init.toFinset ⊆
      ((Finset.range gs.uniqueNames.length).image fun i => (⟨.unique, i⟩ : NameRef)) ∪
      ((Finset.range gs.constantNames.length).image fun i => (⟨.constant, i⟩ : NameRef)) := by
    intro x hx
    rcases hbound x (List.mem_toFinset.mp hx) with ⟨hk, hi⟩ | ⟨hk, hi⟩
    · refine Finset.mem_union_left _ (Finset.mem_image.mpr ⟨x.idx, Finset.mem_range.mpr hi, ?_⟩)
      obtain ⟨xk, xi⟩ := x
      cases hk
      rfl
    · refine Finset.mem_union_right _ (Finset.mem_image.mpr ⟨x.idx, Finset.mem_range.mpr hi, ?_⟩)
      obtain ⟨xk, xi⟩ := x
      cases hk
      rfl
  have hinit : init.length ≤ gs.uniqueNames.length + gs.constantNames.length := by
    have h1 : init.toFinset.card = init.length := List.toFinset_card_of_nodup hndi
    have h2 := Finset.card_le_card hsub
    have h3 := Finset.card_union_le
      ((Finset.range gs.uniqueNames.length).image fun i => (⟨.unique, i⟩ : NameRef))
      ((Finset.range gs.constantNames.length).image fun i => (⟨.constant, i⟩ : NameRef))
    have h4 := Finset.card_image_le (s := Finset.range gs.uniqueNames.length)
      (f := fun i => (⟨.unique, i⟩ : NameRef))
    have h5 := Finset.card_image_le (s := Finset.range gs.constantNames.length)
      (f := fun i => (⟨.constant, i⟩ : NameRef))
    simp only [Finset.card_range] at h4 h5
    omega
  simp only [List.length_append, List.length_cons, List.length_nil, arenaFuel]
  omega

theorem showName_of_showFuel {gs : GlobalState} {f : Nat} {h : NameRef} {s : String}
    (hs : showFuel f gs h = some s) : showName gs h = some s := by
  obtain ⟨l, hl, hpos, hshow⟩ := showFuel_chain f h s hs
  exact showFuel_mono l.length (arenaFuel gs) (chainRecords_length_le f h l hl) h s hshow

theorem intern_nodup {gs gs' : GlobalState} {s : String} {h : NameRef}
    (hc : intern gs s = .ok (gs', h)) (hnd : gs.utf8Names.Nodup) :
    gs'.utf8Names.Nodup := by
  unfold intern at hc
  by_cases hfz : gs.frozen = true
  · simp [hfz] at hc
  · simp only [Bool.not_eq_true] at hfz
    rw [hfz] at hc
    simp only [Bool.false_eq_true, if_false] at hc
    cases hl : lookupIdx (fun r => decide (r.utf8 = s)) gs.utf8Names with
    | some i =>
      rw [hl] at hc
      simp only [Except.ok.injEq, Prod.mk.injEq] at hc
      obtain ⟨rfl, rfl⟩ := hc
      exact hnd
    | none =>
      rw [hl] at hc
      simp only [Except.ok.injEq, Prod.mk.injEq] at hc
      obtain ⟨rfl, rfl⟩ := hc
      show (gs.utf8Names ++ [(⟨s⟩ : UTF8Name)]).Nodup
      rw [List.nodup_append]
      refine ⟨hnd, by simp, ?_⟩
      intro x hxmem hxmem2
      have hx : x = ⟨s⟩ := by simpa using hxmem2
      have hfalse := lookupIdx_none_forall hl x hxmem
      rw [hx] at hfalse
      simp at hfalse

theorem sepFor_length_pos (k : UniqueNameKind) : 0 < (sepFor k).length := by
  cases k <;> decide

theorem renderUnique_eq_of_ne {s : String} {k : UniqueNameKind} {n : Nat}
    (hk : k ≠ .WellKnown) : renderUnique s k n = s ++ sepFor k ++ toString n := by
  cases k
  case WellKnown => exact absurd rfl hk
  all_goals rfl

theorem renderUnique_ne_self {s : String} {k : UniqueNameKind} {n : Nat}
    (hk : k ≠ .WellKnown) : renderUnique s k n ≠ s := by
  rw [renderUnique_eq_of_ne hk]
  intro he
  have hlen := congrArg String.length he
  rw [String.length_append, String.length_append] at hlen
  have := sepFor_length_pos k
  omega

theorem showFuel_unique_step {gs : GlobalState} {h : NameRef} {r : UniqueName}
    {f : Nat} {s : String} (hk : h.kind = .unique)
    (hr : gs.uniqueNames.get? h.idx = some r)
    (hs : showFuel f gs r.original = some s) :
    showFuel (f + 1) gs h = some (renderUnique s r.uniqueNameKind r.num) := by
  simp only [showFuel, hk]
  rw [hr]
  simp only [Option.some_bind]
  rw [hs]
  rfl

/-- C1: replaying one fixed ordered sequence of `freshUnique` calls against
two freshly created arenas reproduces identical handles and identical
display strings. -/
theorem freshUnique_replay_deterministic (g1 g2 : GlobalState)
    (calls : List (NameRef × UniqueNameKind))
    (h1 : g1 = emptyGlobalState) (h2 : g2 = emptyGlobalState) :
    (runFresh g1 calls).2 = (runFresh g2 calls).2 ∧
    runFreshShows g1 calls = runFreshShows g2 calls := by
  subst h1
  subst h2
  exact ⟨rfl, rfl⟩

/-- C1 witness: a concrete two-call replay on two fresh arenas. -/
theorem freshUnique_replay_deterministic_witness :
    (runFresh emptyGlobalState [(⟨.utf8, 0⟩, .Namer), (⟨.utf8, 0⟩, .Namer)]).2 =
      (runFresh emptyGlobalState [(⟨.utf8, 0⟩, .Namer), (⟨.utf8, 0⟩, .Namer)]).2 ∧
    runFreshShows emptyGlobalState [(⟨.utf8, 0⟩, .Namer), (⟨.utf8, 0⟩, .Namer)] =
      runFreshShows emptyGlobalState [(⟨.utf8, 0⟩, .Namer), (⟨.utf8, 0⟩, .Namer)] :=
  freshUnique_replay_deterministic emptyGlobalState emptyGlobalState
    [(⟨.utf8, 0⟩, .Namer), (⟨.utf8, 0⟩, .Namer)] rfl rfl

/-- C7: on a frozen arena every interning call (`intern`, `freshUnique`,
`internExact`, `constantNameFor`) fails as a fatal usage error. -/
theorem frozen_arena_rejects_interning (gs : GlobalState) (hf : gs.frozen = true)
    (s : String) (o ref : NameRef) (k : UniqueNameKind) (n : Nat) :
    intern gs s = .error .frozenArena ∧
    freshUnique gs o k = .error .frozenArena ∧
    internExact gs o k n = .error .frozenArena ∧
    constantNameFor gs ref = .error .frozenArena := by
  refine ⟨?_, ?_, ?_, ?_⟩ <;>
    simp [intern, freshUnique, internExact, constantNameFor, hf]

/-- C7 witness: a concretely frozen empty arena rejects all four calls. -/
theorem frozen_arena_rejects_interning_witness :
    intern { emptyGlobalState with frozen := true } "x" = .error .frozenArena ∧
    freshUnique { emptyGlobalState with frozen := true } ⟨.utf8, 0⟩ .Namer =
      .error .frozenArena ∧
    internExact { emptyGlobalState with frozen := true } ⟨.utf8, 0⟩ .Namer 1 =
      .error .frozenArena ∧
    constantNameFor { emptyGlobalState with frozen := true } ⟨.utf8, 0⟩ =
      .error .frozenArena :=
  frozen_arena_rejects_interning { emptyGlobalState with frozen := true } rfl
    "x" ⟨.utf8, 0⟩ ⟨.utf8, 0⟩ .Namer 1

/-- C8: a positional-argument record's sequence field encodes the argument
position when non-negative, the sentinel `-1` (stored as `2 ^ 32 - 1`) for a
rest-argument slot and `-2` (stored as `2 ^ 32 - 2`) for a
keyword-rest-argument slot; the three encodings never collide. -/
theorem positionalArg_sequence_encoding (orig : NameRef) :
    (mkPositionalArg orig (-1)).num = 2 ^ 32 - 1 ∧
    (mkPositionalArg orig (-2)).num = 2 ^ 32 - 2 ∧
    (∀ pos : Int, 0 ≤ pos → pos < 2 ^ 32 → (mkPositionalArg orig pos).num = pos.toNat) ∧
    (∀ pos : Int, 0 ≤ pos → pos < 2 ^ 32 - 2 →
      (mkPositionalArg orig pos).num ≠ (mkPositionalArg orig (-1)).num ∧
      (mkPositionalArg orig pos).num ≠ (mkPositionalArg orig (-2)).num) ∧
    (mkPositionalArg orig (-1)).uniqueNameKind = .PositionalArg := by
  refine ⟨?_, ?_, ?_, ?_, rfl⟩
  · show uint32Of (-1) = 2 ^ 32 - 1
    unfold uint32Of
    omega
  · show uint32Of (-2) = 2 ^ 32 - 2
    unfold uint32Of
    omega
  · intro pos h0 hlt
    show uint32Of pos = pos.toNat
    unfold uint32Of
    omega
  · intro pos h0 hlt
    refine ⟨?_, ?_⟩
    · show uint32Of pos ≠ uint32Of (-1)
      unfold uint32Of
      omega
    · show uint32Of pos ≠ uint32Of (-2)
      unfold uint32Of
      omega

/-- C8 witness: the encoding at a concrete handle and concrete positions. -/
theorem positionalArg_sequence_encoding_witness :
    (mkPositionalArg ⟨.utf8, 0⟩ (-1)).num = 2 ^ 32 - 1 ∧
    (mkPositionalArg ⟨.utf8, 0⟩ (-2)).num = 2 ^ 32 - 2 ∧
    (∀ pos : Int, 0 ≤ pos → pos < 2 ^ 32 →
      (mkPositionalArg ⟨.utf8, 0⟩ pos).num = pos.toNat) ∧
    (∀ pos : Int, 0 ≤ pos → pos < 2 ^ 32 - 2 →
      (mkPositionalArg ⟨.utf8, 0⟩ pos).num ≠ (mkPositionalArg ⟨.utf8, 0⟩ (-1)).num ∧
      (mkPositionalArg ⟨.utf8, 0⟩ pos).num ≠ (mkPositionalArg ⟨.utf8, 0⟩ (-2)).num) ∧
    (mkPositionalArg ⟨.utf8, 0⟩ (-1)).uniqueNameKind = .PositionalArg :=
  positionalArg_sequence_encoding ⟨.utf8, 0⟩

/-- C9: the disambiguation kind is a closed tag of exactly sixteen distinct
values in the header's declaration order, and every unique-name record
carries a kind from that set. -/
theorem uniqueNameKind_closed_sixteen :
    allUniqueNameKinds.length = 16 ∧
    allUniqueNameKinds.Nodup ∧
    (∀ k : UniqueNameKind, k ∈ allUniqueNameKinds) ∧
    (∀ r : UniqueName, r.uniqueNameKind ∈ allUniqueNameKinds) := by
  refine ⟨rfl, by decide, fun k => by cases k <;> decide,
    fun r => by cases h : r.uniqueNameKind <;> decide⟩

/-- C10: the compile-time size assertions of `src/core/Names.h` hold under
the modelled LP64 struct layout: `UTF8Name` is 16 bytes aligned 8,
`UniqueName` is 12 bytes aligned 4, `ConstantName` is 4 bytes aligned 4. -/
theorem checkSize_assertions_hold :
    structLayout utf8NameFields = (16, 8) ∧
    structLayout uniqueNameFields = (12, 4) ∧
    structLayout constantNameFields = (4, 4) := by
  refine ⟨by decide, by decide, by decide⟩

/-- C2: a second `intern` of the same byte string on one arena returns the
same handle (and changes nothing); interning a different string never
returns that handle; and interning preserves the invariant that a byte
sequence occupies at most one plain-text record. -/
theorem intern_dedup_idempotent (gs gs' : GlobalState) (s : String) (h : NameRef)
    (hc : intern gs s = .ok (gs', h)) :
    intern gs' s = .ok (gs', h) ∧
    (∀ gs2 h2 s2, intern gs' s2 = .ok (gs2, h2) → s2 ≠ s → h2 ≠ h) ∧
    (gs.utf8Names.Nodup → gs'.utf8Names.Nodup) := by
  obtain ⟨hfz, hfz', hk, hl, _, _, _, _⟩ := intern_ok hc
  refine ⟨?_, ?_, fun hnd => intern_nodup hc hnd⟩
  · unfold intern
    rw [hfz']
    have heta : (⟨.utf8, h.idx⟩ : NameRef) = h := by rw [← hk]
    simp only [Bool.false_eq_true, if_false, hl, heta]
  · intro gs2 h2 s2 hc2 hne heq
    obtain ⟨x, hx, hpx⟩ := lookupIdx_get hl
    obtain ⟨_, _, hk2, hl2, _, _, _, ⟨t2, ht2⟩⟩ := intern_ok hc2
    obtain ⟨x2, hx2, hpx2⟩ := lookupIdx_get hl2
    subst heq
    rw [ht2, get_append_left t2 hx] at hx2
    obtain rfl := Option.some.inj hx2
    have e1 : x.utf8 = s := of_decide_eq_true hpx
    have e2 : x.utf8 = s2 := of_decide_eq_true hpx2
    exact hne (by rw [← e2]; exact e1)

/-- C2 witness: interning "foo" into a fresh arena, then exercising the
dedup, distinctness and single-record conclusions on the result. -/
theorem intern_dedup_idempotent_witness :
    intern fooArena "foo" = .ok (fooArena, ⟨.utf8, 0⟩) ∧
    (∀ gs2 h2 s2, intern fooArena s2 = .ok (gs2, h2) → s2 ≠ "foo" →
      h2 ≠ ⟨.utf8, 0⟩) ∧
    (emptyGlobalState.utf8Names.Nodup → fooArena.utf8Names.Nodup) :=
  intern_dedup_idempotent emptyGlobalState fooArena "foo" ⟨.utf8, 0⟩ rfl

/-- C3: a successful `freshUnique` call stores the record
(original, kind, previous counter + 1), advances the counter to exactly that
value (so successive calls for a fixed pair give 1, 2, 3, ... with no gaps
or reuse, the counter of a fresh arena being 0), and re-requesting an
already-present (original, kind, sequence) triple via the exact-insert path
returns the existing record without changing the arena. -/
theorem freshUnique_counter_monotone (gs gs' : GlobalState) (o h : NameRef)
    (k : UniqueNameKind) (hc : freshUnique gs o k = .ok (gs', h)) :
    (∃ r, gs'.uniqueNames.get? h.idx = some r ∧ r.original = o ∧
      r.uniqueNameKind = k ∧ r.num = counterFor gs o k + 1) ∧
    counterFor gs' o k = counterFor gs o k + 1 ∧
    counterFor emptyGlobalState o k = 0 ∧
    (∀ n j, lookupIdx (fun r => decide (r.original = o ∧ r.uniqueNameKind = k ∧ r.num = n))
        gs'.uniqueNames = some j →
      internExact gs' o k n = .ok (gs', ⟨.unique, j⟩)) := by
  obtain ⟨hfz, hfz', hk, hl, _, _, hcount, _⟩ := freshUnique_ok hc
  refine ⟨?_, hcount, rfl, ?_⟩
  · obtain ⟨r, hr, hpr⟩ := lookupIdx_get hl
    have hprops := of_decide_eq_true hpr
    exact ⟨r, hr, hprops.1, hprops.2.1, hprops.2.2⟩
  · intro n j hj
    unfold internExact
    rw [hfz']
    simp only [Bool.false_eq_true, if_false]
    rw [hj]

/-- C3 witness: one `freshUnique` call with the namer kind on a fresh arena
assigns sequence number 1 and advances the counter from 0 to 1. -/
theorem freshUnique_counter_monotone_witness :
    (∃ r, namerArena.uniqueNames.get? 0 = some r ∧ r.original = ⟨.utf8, 0⟩ ∧
      r.uniqueNameKind = .Namer ∧
      r.num = counterFor emptyGlobalState ⟨.utf8, 0⟩ .Namer + 1) ∧
    counterFor namerArena ⟨.utf8, 0⟩ .Namer =
      counterFor emptyGlobalState ⟨.utf8, 0⟩ .Namer + 1 ∧
    counterFor emptyGlobalState ⟨.utf8, 0⟩ .Namer = 0 ∧
    (∀ n j, lookupIdx (fun r => decide (r.original = ⟨.utf8, 0⟩ ∧
        r.uniqueNameKind = .Namer ∧ r.num = n)) namerArena.uniqueNames = some j →
      internExact namerArena ⟨.utf8, 0⟩ .Namer n = .ok (namerArena, ⟨.unique, j⟩)) :=
  freshUnique_counter_monotone emptyGlobalState namerArena ⟨.utf8, 0⟩ ⟨.unique, 0⟩
    .Namer rfl

/-- C6: the handle returned by `freshUnique(x, WellKnown)` displays exactly
as `x` does, while for every other disambiguation kind the returned handle's
display differs from `x`'s display. -/
theorem freshUnique_display_rule (gs gs' : GlobalState) (x h : NameRef)
    (k : UniqueNameKind) (s : String)
    (hs : showName gs x = some s)
    (hc : freshUnique gs x k = .ok (gs', h)) :
    (k = .WellKnown → showName gs' h = some s) ∧
    (k ≠ .WellKnown → ∃ s', showName gs' h = some s' ∧ s' ≠ s) := by
  obtain ⟨hfz, hfz', hk, hl, _, _, _, _⟩ := freshUnique_ok hc
  obtain ⟨r, hr, hpr⟩ := lookupIdx_get hl
  have hprops := of_decide_eq_true hpr
  have hx : extendsGS gs gs' := freshUnique_extends hc
  unfold showName at hs
  have hs' : showFuel (arenaFuel gs) gs' x = some s := showFuel_extends hx _ _ _ hs
  have hshow : showFuel (arenaFuel gs + 1) gs' h =
      some (renderUnique s r.uniqueNameKind r.num) := by
    refine showFuel_unique_step hk hr ?_
    rw [hprops.1]
    exact hs'
  have hname : showName gs' h = some (renderUnique s r.uniqueNameKind r.num) :=
    showName_of_showFuel hshow
  constructor
  · intro hkw
    rw [hname, hprops.2.1, hkw]
    rfl
  · intro hkw
    refine ⟨renderUnique s r.uniqueNameKind r.num, hname, ?_⟩
    exact renderUnique_ne_self (by rw [hprops.2.1]; exact hkw)

/-- C6 witness: the well-known unique name made from the "foo" handle
displays exactly as "foo". -/
theorem freshUnique_display_rule_witness :
    (UniqueNameKind.WellKnown = UniqueNameKind.WellKnown →
      showName fooWellKnownArena ⟨.unique, 0⟩ = some "foo") ∧
    (UniqueNameKind.WellKnown ≠ UniqueNameKind.WellKnown →
      ∃ s', showName fooWellKnownArena ⟨.unique, 0⟩ = some s' ∧ s' ≠ "foo") :=
  freshUnique_display_rule fooArena fooWellKnownArena ⟨.utf8, 0⟩ ⟨.unique, 0⟩
    .WellKnown "foo" rfl rfl

theorem deepCopyFuel_display :
    ∀ (f : Nat) (src : GlobalState) (h : NameRef) (tgt tgt' : GlobalState)
      (h' : NameRef) (s : String),
      showFuel f src h = some s → deepCopyFuel f src h tgt = .ok (tgt', h') →
      showFuel f tgt' h' = some s := by
  intro f
  induction f with
  | zero =>
    intro src h tgt tgt' h' s hs _
    simp [showFuel] at hs
  | succ f ih =>
    intro src h tgt tgt' h' s hs hc
    obtain ⟨k0, i0⟩ := h
    cases k0 with
    | utf8 =>
      simp only [showFuel] at hs
      rw [Option.map_eq_some'] at hs
      obtain ⟨r, hr, hrs⟩ := hs
      simp only [deepCopyFuel] at hc
      rw [hr] at hc
      simp only [] at hc
      obtain ⟨_, _, hk', hl', _, _, _, _⟩ := intern_ok hc
      obtain ⟨x, hx, hpx⟩ := lookupIdx_get hl'
      simp only [showFuel, hk']
      rw [hx]
      simp only [Option.map_some']
      rw [of_decide_eq_true hpx, hrs]
    | unique =>
      simp only [showFuel] at hs
      rw [Option.bind_eq_some] at hs
      obtain ⟨r, hr, hmap⟩ := hs
      rw [Option.map_eq_some'] at hmap
      obtain ⟨s0, hs0, rfl⟩ := hmap
      simp only [deepCopyFuel] at hc
      rw [hr] at hc
      simp only [] at hc
      cases hrec : deepCopyFuel f src r.original tgt with
      | error e => rw [hrec] at hc; cases hc
      | ok p =>
        obtain ⟨tgtA, o'⟩ := p
        rw [hrec] at hc
        simp only [] at hc
        have hdisp := ih src r.original tgt tgtA o' s0 hs0 hrec
        obtain ⟨_, _, hk', hl', hu8, hcn, _, ⟨tq, htq⟩⟩ := internExact_ok hc
        have hxA : extendsGS tgtA tgt' :=
          ⟨⟨[], by rw [hu8, List.append_nil]⟩, ⟨tq, htq⟩,
            ⟨[], by rw [hcn, List.append_nil]⟩⟩
        have hdisp' : showFuel f tgt' o' = some s0 := showFuel_extends hxA f o' s0 hdisp
        obtain ⟨x, hx, hpx⟩ := lookupIdx_get hl'
        have hprops := of_decide_eq_true hpx
        simp only [showFuel, hk']
        rw [hx]
        simp only [Option.some_bind]
        rw [hprops.1, hdisp']
        simp only [Option.map_some']
        rw [hprops.2.1, hprops.2.2]
    | constant =>
      simp only [showFuel] at hs
      rw [Option.bind_eq_some] at hs
      obtain ⟨r, hr, hrec0⟩ := hs
      simp only [deepCopyFuel] at hc
      rw [hr] at hc
      simp only [] at hc
      cases hrec : deepCopyFuel f src r.original tgt with
      | error e => rw [hrec] at hc; cases hc
      | ok p =>
        obtain ⟨tgtA, o'⟩ := p
        rw [hrec] at hc
        simp only [] at hc
        have hdisp := ih src r.original tgt tgtA o' s hrec0 hrec
        obtain ⟨_, _, hk', hl', hu8, huq, _, ⟨tc, htc⟩⟩ := constantNameFor_ok hc
        have hxA : extendsGS tgtA tgt' :=
          ⟨⟨[], by rw [hu8, List.append_nil]⟩, ⟨[], by rw [huq, List.append_nil]⟩,
            ⟨tc, htc⟩⟩
        have hdisp' : showFuel f tgt' o' = some s := showFuel_extends hxA f o' s hdisp
        obtain ⟨x, hx, hpx⟩ := lookupIdx_get hl'
        simp only [showFuel, hk']
        rw [hx]
        simp only [Option.some_bind]
        rw [of_decide_eq_true hpx, hdisp']

theorem deepCopyFuel_unique_record :
    ∀ (f : Nat) (src : GlobalState) (h : NameRef) (tgt tgt' : GlobalState)
      (h' : NameRef) (r : UniqueName),
      h.kind = .unique → src.uniqueNames.get? h.idx = some r →
      deepCopyFuel f src h tgt = .ok (tgt', h') →
      ∃ r', h'.kind = .unique ∧ tgt'.uniqueNames.get? h'.idx = some r' ∧
        r'.uniqueNameKind = r.uniqueNameKind ∧ r'.num = r.num := by
  intro f src h tgt tgt' h' r hk hr hc
  cases f with
  | zero => simp [deepCopyFuel] at hc
  | succ f =>
    simp only [deepCopyFuel, hk] at hc
    rw [hr] at hc
    simp only [] at hc
    cases hrec : deepCopyFuel f src r.original tgt with
    | error e => rw [hrec] at hc; cases hc
    | ok p =>
      obtain ⟨tgtA, o'⟩ := p
      rw [hrec] at hc
      simp only [] at hc
      obtain ⟨_, _, hk', hl', _, _, _, _⟩ := internExact_ok hc
      obtain ⟨x, hx, hpx⟩ := lookupIdx_get hl'
      have hprops := of_decide_eq_true hpx
      exact ⟨x, hk', hx, hprops.2.1, hprops.2.2⟩

theorem deepCopyFuel_frozen :
    ∀ (f : Nat) (src : GlobalState) (h : NameRef) (tgt tgt' : GlobalState) (h' : NameRef),
      deepCopyFuel f src h tgt = .ok (tgt', h') → tgt'.frozen = false := by
  intro f src h tgt tgt' h' hc
  cases f with
  | zero => simp [deepCopyFuel] at hc
  | succ f =>
    obtain ⟨k0, i0⟩ := h
    cases k0 with
    | utf8 =>
      simp only [deepCopyFuel] at hc
      cases hr : src.utf8Names.get? i0 with
      | none => rw [hr] at hc; cases hc
      | some r =>
        rw [hr] at hc
        simp only [] at hc
        exact (intern_ok hc).2.1
    | unique =>
      simp only [deepCopyFuel] at hc
      cases hr : src.uniqueNames.get? i0 with
      | none => rw [hr] at hc; cases hc
      | some r =>
        rw [hr] at hc
        simp only [] at hc
        cases hrec : deepCopyFuel f src r.original tgt with
        | error e => rw [hrec] at hc; cases hc
        | ok p =>
          obtain ⟨tgtA, o'⟩ := p
          rw [hrec] at hc
          simp only [] at hc
          exact (internExact_ok hc).2.1
    | constant =>
      simp only [deepCopyFuel] at hc
      cases hr : src.constantNames.get? i0 with
      | none => rw [hr] at hc; cases hc
      | some r =>
        rw [hr] at hc
        simp only [] at hc
        cases hrec : deepCopyFuel f src r.original tgt with
        | error e => rw [hrec] at hc; cases hc
        | ok p =>
          obtain ⟨tgtA, o'⟩ := p
          rw [hrec] at hc
          simp only [] at hc
          exact (constantNameFor_ok hc).2.1

theorem deepCopyFuel_stable :
    ∀ (f : Nat) (src : GlobalState) (h : NameRef) (tgt tgt' tgt2 : GlobalState)
      (h' : NameRef),
      deepCopyFuel f src h tgt = .ok (tgt', h') → extendsGS tgt' tgt2 →
      tgt2.frozen = false → deepCopyFuel f src h tgt2 = .ok (tgt2, h') := by
  intro f
  induction f with
  | zero =>
    intro src h tgt tgt' tgt2 h' hc _ _
    simp [deepCopyFuel] at hc
  | succ f ih =>
    intro src h tgt tgt' tgt2 h' hc hx hfz
    obtain ⟨k0, i0⟩ := h
    cases k0 with
    | utf8 =>
      simp only [deepCopyFuel] at hc ⊢
      cases hr : src.utf8Names.get? i0 with
      | none => rw [hr] at hc; cases hc
      | some r =>
        rw [hr] at hc
        simp only [] at hc
        simp only []
        obtain ⟨_, _, hk', hl', _, _, _, _⟩ := intern_ok hc
        obtain ⟨tu, htu⟩ := hx.1
        unfold intern
        rw [hfz]
        have heta : (⟨.utf8, h'.idx⟩ : NameRef) = h' := by rw [← hk']
        simp only [Bool.false_eq_true, if_false, htu,
          lookupIdx_append_some tu hl', heta]
    | unique =>
      simp only [deepCopyFuel] at hc ⊢
      cases hr : src.uniqueNames.get? i0 with
      | none => rw [hr] at hc; cases hc
      | some r =>
        rw [hr] at hc
        simp only [] at hc
        simp only []
        cases hrec : deepCopyFuel f src r.original tgt with
        | error e => rw [hrec] at hc; cases hc
        | ok p =>
          obtain ⟨tgtA, o'⟩ := p
          rw [hrec] at hc
          simp only [] at hc
          have hxA : extendsGS tgtA tgt2 := extendsGS_trans (internExact_extends hc) hx
          have hstep := ih src r.original tgt tgtA tgt2 o' hrec hxA hfz
          rw [hstep]
          simp only []
          obtain ⟨_, _, hk', hl', _, _, _, _⟩ := internExact_ok hc
          obtain ⟨tq, htq⟩ := hx.2.1
          unfold internExact
          rw [hfz]
          have heta : (⟨.unique, h'.idx⟩ : NameRef) = h' := by rw [← hk']
          simp only [Bool.false_eq_true, if_false, htq,
            lookupIdx_append_some tq hl', heta]
    | constant =>
      simp only [deepCopyFuel] at hc ⊢
      cases hr : src.constantNames.get? i0 with
      | none => rw [hr] at hc; cases hc
      | some r =>
        rw [hr] at hc
        simp only [] at hc
        simp only []
        cases hrec : deepCopyFuel f src r.original tgt with
        | error e => rw [hrec] at hc; cases hc
        | ok p =>
          obtain ⟨tgtA, o'⟩ := p
          rw [hrec] at hc
          simp only [] at hc
          have hxA : extendsGS tgtA tgt2 := extendsGS_trans (constantNameFor_extends hc) hx
          have hstep := ih src r.original tgt tgtA tgt2 o' hrec hxA hfz
          rw [hstep]
          simp only []
          obtain ⟨_, _, hk', hl', _, _, _, _⟩ := constantNameFor_ok hc
          obtain ⟨tc, htc⟩ := hx.2.2
          unfold constantNameFor
          rw [hfz]
          have heta : (⟨.constant, h'.idx⟩ : NameRef) = h' := by rw [← hk']
          simp only [Bool.false_eq_true, if_false, htc,
            lookupIdx_append_some tc hl', heta]

/-- C4: a successful deep copy returns a target handle whose display string
equals the source handle's display string exactly, and for unique names the
copied record carries the source record's disambiguation kind and sequence
number unchanged. -/
theorem deepCopy_preserves_display (src tgt tgt' : GlobalState) (h h' : NameRef)
    (s : String) (hs : showName src h = some s)
    (hc : deepCopy src h tgt = .ok (tgt', h')) :
    showName tgt' h' = some s ∧
    (∀ r, h.kind = .unique → src.uniqueNames.get? h.idx = some r →
      ∃ r', h'.kind = .unique ∧ tgt'.uniqueNames.get? h'.idx = some r' ∧
        r'.uniqueNameKind = r.uniqueNameKind ∧ r'.num = r.num) := by
  unfold showName at hs
  unfold deepCopy at hc
  refine ⟨showName_of_showFuel
    (deepCopyFuel_display (arenaFuel src) src h tgt tgt' h' s hs hc), ?_⟩
  intro r hk hr
  exact deepCopyFuel_unique_record (arenaFuel src) src h tgt tgt' h' r hk hr hc

/-- C4 witness: deep-copying the sequence-1 namer unique name over "foo"
into a fresh arena preserves the display "foo$namer$1" and the (kind,
sequence) pair. -/
theorem deepCopy_preserves_display_witness :
    showName fooNamerCopyArena ⟨.unique, 0⟩ = some "foo$namer$1" ∧
    (∀ r, (⟨.unique, 0⟩ : NameRef).kind = .unique →
      fooNamerArena.uniqueNames.get? 0 = some r →
      ∃ r', (⟨.unique, 0⟩ : NameRef).kind = .unique ∧
        fooNamerCopyArena.uniqueNames.get? 0 = some r' ∧
        r'.uniqueNameKind = r.uniqueNameKind ∧ r'.num = r.num) :=
  deepCopy_preserves_display fooNamerArena emptyGlobalState fooNamerCopyArena
    ⟨.unique, 0⟩ ⟨.unique, 0⟩ "foo$namer$1" rfl rfl

/-- C5: re-running a successful deep copy against its own result returns the
identical target handle and leaves the target arena unchanged (merging twice
equals merging once); in particular a plain-text copy whose byte content is
already present in the target returns the pre-existing handle and creates no
record. -/
theorem deepCopy_merge_idempotent (src tgt tgt' : GlobalState) (h h' : NameRef)
    (hc : deepCopy src h tgt = .ok (tgt', h')) :
    deepCopy src h tgt' = .ok (tgt', h') ∧
    (∀ u i, h.kind = .utf8 → src.utf8Names.get? h.idx = some u →
      lookupIdx (fun r => decide (r.utf8 = u.utf8)) tgt.utf8Names = some i →
      tgt' = tgt ∧ h' = ⟨.utf8, i⟩) := by
  constructor
  · exact deepCopyFuel_stable (arenaFuel src) src h tgt tgt' tgt' h' hc
      (extendsGS_refl tgt') (deepCopyFuel_frozen (arenaFuel src) src h tgt tgt' h' hc)
  · intro u i hk hr hlook
    unfold deepCopy at hc
    simp only [arenaFuel, deepCopyFuel, hk] at hc
    rw [hr] at hc
    simp only [] at hc
    unfold intern at hc
    by_cases hfz : tgt.frozen = true
    · simp [hfz] at hc
    · simp only [Bool.not_eq_true] at hfz
      rw [hfz] at hc
      simp only [Bool.false_eq_true, if_false] at hc
      rw [hlook] at hc
      simp only [Except.ok.injEq, Prod.mk.injEq] at hc
      exact ⟨hc.1.symm, hc.2.symm⟩

/-- C5 witness: copying the "foo" handle into a target that already holds
"foo" returns the pre-existing handle and changes nothing, and re-running
the copy returns the identical handle. -/
theorem deepCopy_merge_idempotent_witness :
    deepCopy fooNamerArena ⟨.utf8, 0⟩ fooArena = .ok (fooArena, ⟨.utf8, 0⟩) ∧
    (∀ u i, (⟨.utf8, 0⟩ : NameRef).kind = .utf8 →
      fooNamerArena.utf8Names.get? 0 = some u →
      lookupIdx (fun r => decide (r.utf8 = u.utf8)) fooArena.utf8Names = some i →
      fooArena = fooArena ∧ (⟨.utf8, 0⟩ : NameRef) = ⟨.utf8, i⟩) :=
  deepCopy_merge_idempotent fooNamerArena fooArena fooArena ⟨.utf8, 0⟩ ⟨.utf8, 0⟩ rfl

end SorbetNames
